import Mathlib

set_option linter.unusedVariables false

/-!
Shallow embedding of the brainfck pipeline (src/tokenizer.rs, src/parser.rs,
src/vm.rs).  Machine integers are modelled as Nat/Int; the two places where
fixed-width behaviour is observable are modelled explicitly:
the u8 depth counter of the statement builder wraps modulo 256
(release-build overflow semantics of Rust), and the i32 -> i8 cast in
eval_one truncates the delta modulo 256.
-/

/-- Token (src/tokenizer.rs, enum Token). -/
inductive Token where
  | MovePointerLeft
  | MovePointerRight
  | Decrement
  | Increment
  | Print
  | Read
  | LeftBracket
  | RightBracket
  deriving DecidableEq, Repr

/-- The character-to-symbol map inside tokenize (src/tokenizer.rs). -/
def charToToken (c : Char) : Option Token :=
  if c = '<' then some .MovePointerLeft
  else if c = '>' then some .MovePointerRight
  else if c = '+' then some .Increment
  else if c = '-' then some .Decrement
  else if c = '.' then some .Print
  else if c = ',' then some .Read
  else if c = '[' then some .LeftBracket
  else if c = ']' then some .RightBracket
  else none

/-- tokenize (src/tokenizer.rs): filter_map over the characters. -/
def tokenize (s : List Char) : List Token :=
  s.filterMap charToToken

/-- ParseError (src/parser.rs). -/
inductive ParseError where
  | UnbalancedBrackets
  deriving DecidableEq, Repr

/-- Statement (src/parser.rs); the u8 depth payload is a Nat kept below 256. -/
inductive Statement where
  | ShiftRight
  | ShiftLeft
  | Increment
  | Decrement
  | Print
  | Read
  | JumpIfZero (d : Nat)
  | JumpIfNotZero (d : Nat)
  deriving DecidableEq, Repr

/--
The loop of parse (src/parser.rs lines 33-63).  The Rust depth counter is a
u8; `depth += 1` is modelled as (depth + 1) % 256 and `depth -= 1` as
(depth + 255) % 256, the wrap-around semantics of an overflowing u8 in a
release build (a debug build panics at the same inputs instead).
-/
def parseLoop : List Token → Nat → List Statement × Nat
  | [], depth => ([], depth)
  | t :: ts, depth =>
    match t with
    | .MovePointerLeft =>
      let r := parseLoop ts depth
      (.ShiftLeft :: r.1, r.2)
    | .MovePointerRight =>
      let r := parseLoop ts depth
      (.ShiftRight :: r.1, r.2)
    | .Increment =>
      let r := parseLoop ts depth
      (.Increment :: r.1, r.2)
    | .Decrement =>
      let r := parseLoop ts depth
      (.Decrement :: r.1, r.2)
    | .Print =>
      let r := parseLoop ts depth
      (.Print :: r.1, r.2)
    | .Read =>
      let r := parseLoop ts depth
      (.Read :: r.1, r.2)
    | .LeftBracket =>
      let r := parseLoop ts ((depth + 1) % 256)
      (.JumpIfZero depth :: r.1, r.2)
    | .RightBracket =>
      let d1 := (depth + 255) % 256
      let r := parseLoop ts d1
      (.JumpIfNotZero d1 :: r.1, r.2)

/-- parse (src/parser.rs lines 28-70). -/
def parse (ts : List Token) : Except ParseError (List Statement) :=
  let r := parseLoop ts 0
  if r.2 = 0 then .ok r.1 else .error .UnbalancedBrackets

/-- Instruction (src/vm.rs). -/
inductive Instruction where
  | Increment (n : Int)
  | Shift (n : Int)
  | Print
  | JumpIfZero (t : Nat)
  | JumpIfNotZero (t : Nat)
  deriving DecidableEq, Repr

/-- CompilerState (src/vm.rs). -/
inductive CompilerState where
  | Initial
  | Increment (n : Int)
  | Shift (n : Int)
  deriving DecidableEq, Repr

/-- RuntimeError (src/vm.rs). -/
inductive RuntimeError where
  | NegativeRegister
  | NoMoreCells
  deriving DecidableEq, Repr

/-- MEMORY_CELLS (src/vm.rs line 3). -/
def MEMORY_CELLS : Nat := 30000

/--
The VM struct (src/vm.rs lines 5-9): instruction pointer, cell pointer and
the tape, the latter modelled as a total function on indices (the Rust array
accesses are all made at mem_ptr, in bounds in every reachable state).
-/
structure VMState where
  iPtr : Nat
  memPtr : Nat
  memory : Nat → Nat

/-- Default::default() for VM (src/vm.rs lines 32-40). -/
def initialVM : VMState := ⟨0, 0, fun _ => 0⟩

/-- The `*n as i8` cast of eval_one: i32 to i8 two's-complement truncation. -/
def toI8 (n : Int) : Int :=
  let m := n % 256
  if 128 ≤ m then m - 256 else m

/-- u8::saturating_add_signed, for a cell value in [0, 255]. -/
def saturatingAddSigned (cell : Nat) (rhs : Int) : Nat :=
  let r : Int := (cell : Int) + rhs
  if r < 0 then 0 else if 255 < r then 255 else r.toNat

/--
eval_one (src/vm.rs lines 52-91).  Returns the post-state (the Rust method
mutates self in place) together with the Result: the next instruction index
on success, or the RuntimeError.  On every error path the Rust code returns
before mutating, so the state is returned unchanged there.
-/
def eval_one (s : VMState) (inst : Instruction) : VMState × Except RuntimeError Nat :=
  let cell := s.memory s.memPtr
  match inst with
  | .Increment n =>
    if n < 0 ∧ cell < n.natAbs then (s, .error .NegativeRegister)
    else ({ s with memory := fun i => if i = s.memPtr then saturatingAddSigned cell (toI8 n) else s.memory i },
          .ok (s.iPtr + 1))
  | .Shift n =>
    let target : Option Nat :=
      if 0 < n then some (s.memPtr + n.toNat)
      else if n.natAbs ≤ s.memPtr then some (s.memPtr - n.natAbs) else none
    match target with
    | some t =>
      if MEMORY_CELLS ≤ t then (s, .error .NoMoreCells)
      else ({ s with memPtr := t }, .ok (s.iPtr + 1))
    | none => (s, .error .NoMoreCells)
  | .Print => (s, .ok (s.iPtr + 1))
  | .JumpIfZero t => (s, .ok (if cell = 0 then t else s.iPtr + 1))
  | .JumpIfNotZero t => (s, .ok (if cell ≠ 0 then t else s.iPtr + 1))

/--
Outcome of running eval (src/vm.rs lines 43-50): the loop halts when the
instruction pointer leaves the stream, and panics on a runtime error.
outOfFuel is the fuel-exhaustion marker of the embedding, not a program
behaviour.
-/
inductive EvalResult where
  | done (s : VMState)
  | panicked (e : RuntimeError)
  | outOfFuel

/-- eval (src/vm.rs lines 43-50), with explicit fuel for the while loop. -/
def eval (fuel : Nat) (prog : List Instruction) (s : VMState) : EvalResult :=
  match fuel with
  | 0 => .outOfFuel
  | f + 1 =>
    match prog[s.iPtr]? with
    | none => .done s
    | some inst =>
      match eval_one s inst with
      | (s1, .ok next) => eval f prog { s1 with iPtr := next }
      | (_, .error e) => .panicked e

/-- The flush_and_reset closure of compile (src/vm.rs lines 98-109): the
instructions it appends. -/
def flushInstr : CompilerState → List Instruction
  | .Increment n => if n = 0 then [] else [.Increment n]
  | .Shift n => if n = 0 then [] else [.Shift n]
  | .Initial => []

/--
The folding loop of compile (src/vm.rs lines 111-141), returning none where
the Rust code panics (the `todo!` arm reached by Statement::Read).
-/
def compileLoop : List Statement → CompilerState → Option (List Instruction)
  | [], st => some (flushInstr st)
  | stmt :: rest, st =>
    match stmt, st with
    | .Increment, .Increment n => compileLoop rest (.Increment (n + 1))
    | .Decrement, .Increment n => compileLoop rest (.Increment (n - 1))
    | .ShiftRight, .Shift n => compileLoop rest (.Shift (n + 1))
    | .ShiftLeft, .Shift n => compileLoop rest (.Shift (n - 1))
    | _, _ =>
      let fl := flushInstr st
      let tail : Option (List Instruction) :=
        match stmt with
        | .ShiftRight => compileLoop rest (.Shift 1)
        | .ShiftLeft => compileLoop rest (.Shift (-1))
        | .Increment => compileLoop rest (.Increment 1)
        | .Decrement => compileLoop rest (.Increment (-1))
        | .Print => (compileLoop rest .Initial).map (fun out => .Print :: out)
        | .JumpIfZero n => (compileLoop rest .Initial).map (fun out => .JumpIfZero n :: out)
        | .JumpIfNotZero n => (compileLoop rest .Initial).map (fun out => .JumpIfNotZero n :: out)
        | .Read => none
      tail.map (fun out => fl ++ out)

/--
The `after.iter().position(..)` search of resolve_jumps, carried at an
absolute index: first j ≥ the running index with the given element
JumpIfNotZero n.
-/
def findIdxAux (n : Nat) : List Instruction → Nat → Option Nat
  | [], _ => none
  | x :: xs, i => if x = .JumpIfNotZero n then some i else findIdxAux n xs (i + 1)

/-- split_at_mut(i) followed by position, mapped back to an absolute index. -/
def findFromIdx (b : List Instruction) (start n : Nat) : Option Nat :=
  findIdxAux n (b.drop start) start

/--
The `for i in 0..bytecode.len()` loop of resolve_jumps (src/vm.rs lines
147-163); k is the remaining iteration count.  none models the
`.expect("Expected to find matching jump")` panic.
-/
def resolveGo : Nat → List Instruction → Nat → Option (List Instruction)
  | 0, b, _ => some b
  | k + 1, b, i =>
    match b[i]? with
    | some (.JumpIfZero n) =>
      match findFromIdx b i n with
      | some j => resolveGo k ((b.set i (.JumpIfZero j)).set j (.JumpIfNotZero i)) (i + 1)
      | none => none
    | _ => resolveGo k b (i + 1)

/-- resolve_jumps (src/vm.rs lines 147-163). -/
def resolve_jumps (b : List Instruction) : Option (List Instruction) :=
  resolveGo b.length b 0

/-- compile (src/vm.rs lines 94-145). -/
def compile (stmts : List Statement) : Option (List Instruction) :=
  (compileLoop stmts .Initial).bind resolve_jumps

/-- Tape cell of a finished run, for stating concrete executions. -/
def doneMemAt (r : EvalResult) (i : Nat) : Option Nat :=
  match r with
  | .done s => some (s.memory i)
  | _ => none

/-- Whole-pipeline runner: tokenize, parse, compile, then eval from the
initial state with the given fuel. -/
def runOutcome (cs : List Char) (fuel : Nat) : Option EvalResult :=
  match parse (tokenize cs) with
  | .error _ => none
  | .ok stmts => (compile stmts).map fun code => eval fuel code initialVM

/-- Tape cell i after a whole-pipeline run, none unless the run finished. -/
def runMemAt (cs : List Char) (fuel i : Nat) : Option Nat :=
  (runOutcome cs fuel).bind fun r => doneMemAt r i

/-- Contribution of one statement to a movement run. -/
def shiftDelta : Statement → Int
  | .ShiftRight => 1
  | .ShiftLeft => -1
  | _ => 0

/-- Net movement of a statement run. -/
def netShift : List Statement → Int
  | [] => 0
  | s :: rest => shiftDelta s + netShift rest

/-- Is the instruction a loop-open jump. -/
def isJumpOpen : Instruction → Bool
  | .JumpIfZero _ => true
  | _ => false

/-- Is the instruction a loop-close jump. -/
def isJumpClose : Instruction → Bool
  | .JumpIfNotZero _ => true
  | _ => false

/-- Effect of one instruction on the running bracket depth. -/
def profStep (d : Nat) : Instruction → Nat
  | .JumpIfZero _ => d + 1
  | .JumpIfNotZero _ => d - 1
  | _ => d

/-- Bracket depth in front of position k of the list, starting from depth d. -/
def profAux : Nat → List Instruction → Nat → Nat
  | d, _, 0 => d
  | d, [], _ + 1 => d
  | d, x :: xs, k + 1 => profAux (profStep d x) xs k

/--
Specification predicate: seen from current depth d, the instruction list is
a correctly depth-tagged bracket continuation that never closes below depth
0 and ends exactly at depth 0; every open jump is tagged with the depth in
front of it and every close jump with the depth right after it.
-/
inductive WT : Nat → List Instruction → Prop where
  | nil : WT 0 []
  | jz (d : Nat) (rest : List Instruction) :
      WT (d + 1) rest → WT d (.JumpIfZero d :: rest)
  | jnz (d : Nat) (rest : List Instruction) :
      WT d rest → WT (d + 1) (.JumpIfNotZero d :: rest)
  | skip (d : Nat) (x : Instruction) (rest : List Instruction) :
      isJumpOpen x = false → isJumpClose x = false → WT d rest → WT d (x :: rest)

/-- Is the statement a jump statement. -/
def stmtIsJump : Statement → Bool
  | .JumpIfZero _ => true
  | .JumpIfNotZero _ => true
  | _ => false

/-- The statement-level analogue of WT, additionally excluding Read. -/
inductive WTS : Nat → List Statement → Prop where
  | nil : WTS 0 []
  | jz (d : Nat) (rest : List Statement) :
      WTS (d + 1) rest → WTS d (.JumpIfZero d :: rest)
  | jnz (d : Nat) (rest : List Statement) :
      WTS d rest → WTS (d + 1) (.JumpIfNotZero d :: rest)
  | skip (d : Nat) (x : Statement) (rest : List Statement) :
      stmtIsJump x = false → x ≠ .Read → WTS d rest → WTS d (x :: rest)

/--
Spec-side well-bracketedness of a token sequence: the running bracket depth
never underflows, never has to exceed 255 (so the u8 depth counter of parse
never wraps), and returns to zero at the end.
-/
def tokDepthOk : Nat → List Token → Bool
  | d, [] => decide (d = 0)
  | d, .LeftBracket :: ts => decide (d < 255) && tokDepthOk (d + 1) ts
  | d, .RightBracket :: ts => decide (0 < d) && tokDepthOk (d - 1) ts
  | d, _ :: ts => tokDepthOk d ts

/--
Invariant of the resolve_jumps sweep over an original stream b: in the
current stream c, the opens before position a and the closes matched by
them are rewritten to their resolved targets, everything else still holds
its original content.
-/
def Rewritten (b cur : List Instruction) (a : Nat) : Prop :=
  cur.length = b.length ∧
  (∀ q d, b[q]? = some (.JumpIfZero d) →
      (a ≤ q → cur[q]? = some (.JumpIfZero d)) ∧
      (q < a → ∃ j, findFromIdx b q d = some j ∧ cur[q]? = some (.JumpIfZero j))) ∧
  (∀ q t, b[q]? = some (.JumpIfNotZero t) →
      (∃ p dp, p < a ∧ b[p]? = some (.JumpIfZero dp) ∧ findFromIdx b p dp = some q ∧
          cur[q]? = some (.JumpIfNotZero p)) ∨
      ((¬ ∃ p dp, p < a ∧ b[p]? = some (.JumpIfZero dp) ∧ findFromIdx b p dp = some q) ∧
          cur[q]? = some (.JumpIfNotZero t))) ∧
  (∀ (q : Nat) (x : Instruction),
      b[q]? = some x → isJumpOpen x = false → isJumpClose x = false → cur[q]? = some x)

/-! Helper lemmas. -/

/-- resolve_jumps leaves a stream without open-jump instructions unchanged. -/
theorem resolveGo_no_open (k : Nat) : ∀ (b : List Instruction) (i : Nat),
    (∀ t, Instruction.JumpIfZero t ∉ b) → resolveGo k b i = some b := by
  induction k with
  | zero => intro b i h; rfl
  | succ k ih =>
    intro b i h
    cases hb : b[i]? with
    | none => simp [resolveGo, hb, ih b (i + 1) h]
    | some x =>
      cases x with
      | JumpIfZero t =>
        exact absurd (List.getElem?_mem hb) (h t)
      | JumpIfNotZero t => simp [resolveGo, hb, ih b (i + 1) h]
      | Increment n => simp [resolveGo, hb, ih b (i + 1) h]
      | Shift n => simp [resolveGo, hb, ih b (i + 1) h]
      | Print => simp [resolveGo, hb, ih b (i + 1) h]

theorem resolve_jumps_no_open (b : List Instruction)
    (h : ∀ t, Instruction.JumpIfZero t ∉ b) : resolve_jumps b = some b :=
  resolveGo_no_open b.length b 0 h

/-- Folding a pure movement run from an accumulating Shift state. -/
theorem compileLoop_shift_run : ∀ (ss : List Statement),
    (∀ s ∈ ss, s = Statement.ShiftRight ∨ s = Statement.ShiftLeft) → ∀ n : Int,
    compileLoop ss (.Shift n) = some (flushInstr (.Shift (n + netShift ss))) := by
  intro ss
  induction ss with
  | nil => intro h n; simp [compileLoop, netShift]
  | cons s rest ih =>
    intro h n
    have hs := h s (List.mem_cons_self s rest)
    have hrest : ∀ s ∈ rest, s = Statement.ShiftRight ∨ s = Statement.ShiftLeft :=
      fun x hx => h x (List.mem_cons_of_mem s hx)
    rcases hs with hs | hs <;> subst hs
    · rw [show compileLoop (Statement.ShiftRight :: rest) (.Shift n) =
          compileLoop rest (.Shift (n + 1)) from rfl, ih hrest (n + 1)]
      have : n + 1 + netShift rest = n + netShift (Statement.ShiftRight :: rest) := by
        simp [netShift, shiftDelta]; ring
      rw [this]
    · rw [show compileLoop (Statement.ShiftLeft :: rest) (.Shift n) =
          compileLoop rest (.Shift (n - 1)) from rfl, ih hrest (n - 1)]
      have : n - 1 + netShift rest = n + netShift (Statement.ShiftLeft :: rest) := by
        simp [netShift, shiftDelta]; ring
      rw [this]

/-- compile on a pure movement run. -/
theorem compile_shift_run (ss : List Statement)
    (h : ∀ s ∈ ss, s = Statement.ShiftRight ∨ s = Statement.ShiftLeft) :
    compile ss = some (if netShift ss = 0 then [] else [.Shift (netShift ss)]) := by
  have hflush : ∀ m : Int, resolve_jumps (flushInstr (.Shift m)) = some (flushInstr (.Shift m)) := by
    intro m
    apply resolve_jumps_no_open
    intro t ht
    simp only [flushInstr] at ht
    by_cases hm : m = 0 <;> simp [hm] at ht
  have hfl : ∀ m : Int, flushInstr (.Shift m) = if m = 0 then [] else [Instruction.Shift m] := by
    intro m; rfl
  cases ss with
  | nil =>
    show (compileLoop [] .Initial).bind resolve_jumps = _
    simp [compileLoop, flushInstr, resolve_jumps, resolveGo, netShift]
  | cons s rest =>
    have hrest : ∀ x ∈ rest, x = Statement.ShiftRight ∨ x = Statement.ShiftLeft :=
      fun x hx => h x (List.mem_cons_of_mem s hx)
    rcases h s (List.mem_cons_self s rest) with hs | hs <;> subst hs
    · show (compileLoop (Statement.ShiftRight :: rest) .Initial).bind resolve_jumps = _
      rw [show compileLoop (Statement.ShiftRight :: rest) .Initial =
            (compileLoop rest (.Shift 1)).map (fun out => flushInstr .Initial ++ out) from rfl,
          compileLoop_shift_run rest hrest 1]
      simp only [Option.map_some', show flushInstr CompilerState.Initial = [] from rfl, List.nil_append, Option.some_bind]
      rw [show (1 : Int) + netShift rest = netShift (Statement.ShiftRight :: rest) by
            simp [netShift, shiftDelta]]
      rw [hflush, hfl]
    · show (compileLoop (Statement.ShiftLeft :: rest) .Initial).bind resolve_jumps = _
      rw [show compileLoop (Statement.ShiftLeft :: rest) .Initial =
            (compileLoop rest (.Shift (-1))).map (fun out => flushInstr .Initial ++ out) from rfl,
          compileLoop_shift_run rest hrest (-1)]
      simp only [Option.map_some', show flushInstr CompilerState.Initial = [] from rfl, List.nil_append, Option.some_bind]
      rw [show (-1 : Int) + netShift rest = netShift (Statement.ShiftLeft :: rest) by
            simp [netShift, shiftDelta]]
      rw [hflush, hfl]

/-- compileLoop aborts (todo! panic) as soon as it meets a Read statement. -/
theorem compileLoop_read_none (ss : List Statement) :
    ∀ st : CompilerState, Statement.Read ∈ ss → compileLoop ss st = none := by
  induction ss with
  | nil => intro st h; simp at h
  | cons s rest ih =>
    intro st h
    rcases List.mem_cons.mp h with h1 | h1
    · rw [← h1]; cases st <;> rfl
    · have hr : ∀ st : CompilerState, compileLoop rest st = none := fun st => ih st h1
      cases s <;> cases st <;> simp [compileLoop, hr]

/-! Claim theorems. -/

/--
C1: evaluation of the code at the failing input.  The spec demands
saturating addition clamped to [0,255], so Increment(200) on a cell holding
0 would have to leave 200; eval_one first truncates the i32 delta to an i8
(200 becomes -56), so the cell stays at 0 and the step still succeeds.
-/
theorem increment_delta_truncated :
    (eval_one initialVM (.Increment 200)).1.memory 0 = 0 ∧
    (eval_one initialVM (.Increment 200)).2 = .ok 1 := by
  constructor <;> rfl

/--
C2: evaluation of the code at the failing input.  On the token sequence of
"][" the u8 depth counter wraps 0 -> 255 -> 0, so parse accepts the input
instead of failing with UnbalancedBrackets (a debug build panics on the
underflow instead).
-/
theorem parse_wrap_accepts_unbalanced :
    parse [Token.RightBracket, Token.LeftBracket] =
      .ok [Statement.JumpIfNotZero 255, Statement.JumpIfZero 255] := by
  rfl

/--
C3 counterexample: a statement sequence produced by a successful parse (of
the tokens of "][", accepted through u8 wrap-around) for which compile
produces no instruction stream at all: resolve_jumps hits the
`.expect("Expected to find matching jump")` panic, so no compiled stream
with symmetric jump pairing exists.
-/
theorem wrapped_parse_compile_fails :
    parse [Token.RightBracket, Token.LeftBracket] =
      .ok [Statement.JumpIfNotZero 255, Statement.JumpIfZero 255] ∧
    compile [Statement.JumpIfNotZero 255, Statement.JumpIfZero 255] = none := by
  constructor <;> rfl

/--
C4: the program "++[>+<-]" compiles and terminates from the initial state
with cell 0 holding 0 and cell 1 holding 2.
-/
theorem transfer_loop_runs :
    runMemAt ['+', '+', '[', '>', '+', '<', '-', ']'] 50 0 = some 0 ∧
    runMemAt ['+', '+', '[', '>', '+', '<', '-', ']'] 50 1 = some 2 := by
  constructor <;> rfl

/--
C5: run-length folding.  The statement sequence of "+++" compiles to the
single instruction Increment 3, that of "+-" compiles to the empty stream,
and any run of ShiftRight/ShiftLeft statements compiles to the single
Shift with the net delta, or to nothing when the net delta is zero.
-/
theorem compile_folds_runs :
    parse (tokenize ['+', '+', '+']) = .ok [.Increment, .Increment, .Increment] ∧
    compile [.Increment, .Increment, .Increment] = some [.Increment 3] ∧
    parse (tokenize ['+', '-']) = .ok [.Increment, .Decrement] ∧
    compile [.Increment, .Decrement] = some [] ∧
    ∀ ss : List Statement, (∀ s ∈ ss, s = Statement.ShiftRight ∨ s = Statement.ShiftLeft) →
      compile ss = some (if netShift ss = 0 then [] else [.Shift (netShift ss)]) := by
  refine ⟨rfl, rfl, rfl, rfl, ?_⟩
  intro ss h
  exact compile_shift_run ss h

/-- Witness for C5 on the concrete movement run of "> > <". -/
theorem compile_folds_runs_witness :
    (∀ s ∈ [Statement.ShiftRight, Statement.ShiftRight, Statement.ShiftLeft],
        s = Statement.ShiftRight ∨ s = Statement.ShiftLeft) ∧
    compile [Statement.ShiftRight, Statement.ShiftRight, Statement.ShiftLeft] =
      some (if netShift [Statement.ShiftRight, Statement.ShiftRight, Statement.ShiftLeft] = 0
            then [] else [.Shift (netShift [Statement.ShiftRight, Statement.ShiftRight, Statement.ShiftLeft])]) :=
  ⟨by decide, compile_folds_runs.2.2.2.2 [Statement.ShiftRight, Statement.ShiftRight, Statement.ShiftLeft] (by decide)⟩

/--
C6: evaluation of the code at the failing input.  The execution entry point
eval does not return the runtime failure: it raises the
`panic!("Runtime error: ...")` (modelled as the panicked outcome) when
eval_one reports NoMoreCells.
-/
theorem eval_panics_on_runtime_error :
    eval 1 [.Shift (-1)] initialVM = .panicked .NoMoreCells := by
  rfl

/--
C7: Shift bounds checking.  With the cell pointer in bounds, a Shift whose
candidate target (cell pointer plus delta over the integers) lies outside
[0, MEMORY_CELLS) fails with NoMoreCells and returns the state unchanged;
otherwise it commits the candidate and advances the instruction pointer by
one.
-/
theorem shift_checked_bounds (s : VMState) (d : Int) (h : s.memPtr < MEMORY_CELLS) :
    (((s.memPtr : Int) + d < 0 ∨ (MEMORY_CELLS : Int) ≤ (s.memPtr : Int) + d) →
        eval_one s (.Shift d) = (s, .error .NoMoreCells)) ∧
    (0 ≤ (s.memPtr : Int) + d → (s.memPtr : Int) + d < (MEMORY_CELLS : Int) →
        eval_one s (.Shift d) = ({ s with memPtr := ((s.memPtr : Int) + d).toNat }, .ok (s.iPtr + 1))) := by
  have hmc : (MEMORY_CELLS : Int) = 30000 := by rfl
  have hmcn : MEMORY_CELLS = 30000 := rfl
  constructor
  · intro hout
    simp only [eval_one]
    by_cases hd : 0 < d
    · have h2 : MEMORY_CELLS ≤ s.memPtr + d.toNat := by
        rcases hout with h2 | h2 <;> omega
      simp [hd, h2]
    · have hd0 : d ≤ 0 := by omega
      by_cases hsub : d.natAbs ≤ s.memPtr
      · have h2 : MEMORY_CELLS ≤ s.memPtr - d.natAbs := by
          rcases hout with h2 | h2 <;> omega
        simp [hd, hsub, h2]
      · simp [hd, hsub]
  · intro h0 h1
    simp only [eval_one]
    by_cases hd : 0 < d
    · have h2 : ¬ MEMORY_CELLS ≤ s.memPtr + d.toNat := by omega
      have h3 : s.memPtr + d.toNat = ((s.memPtr : Int) + d).toNat := by omega
      simp [hd, h2, h3]
      omega
    · have hd0 : d ≤ 0 := by omega
      have hsub : d.natAbs ≤ s.memPtr := by omega
      have h2 : ¬ MEMORY_CELLS ≤ s.memPtr - d.natAbs := by omega
      have h3 : s.memPtr - d.natAbs = ((s.memPtr : Int) + d).toNat := by omega
      simp [hd, hsub, h2, h3]
      omega

/-- Witness for C7: Shift(-1) at cell pointer 0 fails with NoMoreCells and
leaves the state unchanged (Scenario 5). -/
theorem shift_checked_bounds_witness :
    initialVM.memPtr < MEMORY_CELLS ∧
    eval_one initialVM (.Shift (-1)) = (initialVM, .error .NoMoreCells) :=
  ⟨by decide, (shift_checked_bounds initialVM (-1) (by decide)).1 (Or.inl (by decide))⟩

/--
C8: the signed-underflow guard.  For any negative delta whose magnitude
exceeds the current cell value, Increment fails with NegativeRegister and
returns the state unchanged.
-/
theorem increment_negative_guard (s : VMState) (d : Int)
    (hd : d < 0) (hv : s.memory s.memPtr < d.natAbs) :
    eval_one s (.Increment d) = (s, .error .NegativeRegister) := by
  simp only [eval_one]
  rw [if_pos ⟨hd, hv⟩]

/-- Witness for C8: Increment(-1) on a cell holding 0 fails with
NegativeRegister and leaves the cell at 0 (Scenario 6). -/
theorem increment_negative_guard_witness :
    (-1 : Int) < 0 ∧ initialVM.memory initialVM.memPtr < (-1 : Int).natAbs ∧
    eval_one initialVM (.Increment (-1)) = (initialVM, .error .NegativeRegister) :=
  ⟨by decide, by decide, increment_negative_guard initialVM (-1) (by decide) (by decide)⟩

/--
C9: compile produces no instruction stream for any statement sequence
containing a Read statement: the Input arm of the lowering match is the
unconditional `todo!` panic, modelled as none.
-/
theorem compile_rejects_read (ss : List Statement) (h : Statement.Read ∈ ss) :
    compile ss = none := by
  show (compileLoop ss .Initial).bind resolve_jumps = none
  rw [compileLoop_read_none ss .Initial h]
  rfl

/-- Witness for C9 at the one-statement program consisting of Read. -/
theorem compile_rejects_read_witness :
    Statement.Read ∈ [Statement.Read] ∧ compile [Statement.Read] = none :=
  ⟨by decide, compile_rejects_read [Statement.Read] (by decide)⟩

/--
C10: frame effect of Print, JumpIfZero and JumpIfNotZero: with the cell
pointer in bounds, eval_one returns the state unchanged (tape and cell
pointer untouched) and only the returned next-instruction index varies.
-/
theorem frame_print_and_jumps (s : VMState) (t : Nat) (h : s.memPtr < MEMORY_CELLS) :
    eval_one s .Print = (s, .ok (s.iPtr + 1)) ∧
    eval_one s (.JumpIfZero t) = (s, .ok (if s.memory s.memPtr = 0 then t else s.iPtr + 1)) ∧
    eval_one s (.JumpIfNotZero t) = (s, .ok (if s.memory s.memPtr ≠ 0 then t else s.iPtr + 1)) :=
  ⟨rfl, rfl, rfl⟩

/-- Witness for C10 at the initial state with jump target 7. -/
theorem frame_print_and_jumps_witness :
    initialVM.memPtr < MEMORY_CELLS ∧
    (eval_one initialVM .Print = (initialVM, .ok (initialVM.iPtr + 1)) ∧
     eval_one initialVM (.JumpIfZero 7) =
       (initialVM, .ok (if initialVM.memory initialVM.memPtr = 0 then 7 else initialVM.iPtr + 1)) ∧
     eval_one initialVM (.JumpIfNotZero 7) =
       (initialVM, .ok (if initialVM.memory initialVM.memPtr ≠ 0 then 7 else initialVM.iPtr + 1))) :=
  ⟨by decide, frame_print_and_jumps initialVM 7 (by decide)⟩

/-! Depth-profile lemmas. -/

theorem profAux_nil (d k : Nat) : profAux d [] k = d := by
  cases k <;> rfl

theorem profAux_zero (d : Nat) (b : List Instruction) : profAux d b 0 = d := by
  cases b <;> rfl

theorem profAux_cons (d : Nat) (x : Instruction) (xs : List Instruction) (k : Nat) :
    profAux d (x :: xs) (k + 1) = profAux (profStep d x) xs k := rfl

theorem profAux_stable (b : List Instruction) : ∀ (d k : Nat), b.length ≤ k →
    profAux d b k = profAux d b b.length := by
  induction b with
  | nil => intro d k _; rw [profAux_nil, profAux_nil]
  | cons x xs ih =>
    intro d k hk
    match k, hk with
    | k + 1, hk =>
      rw [profAux_cons, show (x :: xs).length = xs.length + 1 from rfl, profAux_cons]
      exact ih (profStep d x) k (by simpa using hk)

theorem profAux_step (b : List Instruction) : ∀ (d k : Nat) (x : Instruction),
    b[k]? = some x → profAux d b (k + 1) = profStep (profAux d b k) x := by
  induction b with
  | nil => intro d k x h; simp at h
  | cons y xs ih =>
    intro d k x h
    cases k with
    | zero =>
      simp at h
      rw [← h, profAux_cons, profAux_zero, profAux_zero]
    | succ k =>
      simp only [List.getElem?_cons_succ] at h
      rw [profAux_cons, profAux_cons, ih (profStep d y) k x h]

theorem profStep_le_succ (d : Nat) (x : Instruction) :
    profStep d x ≤ d + 1 ∧ d ≤ profStep d x + 1 := by
  cases x <;> simp [profStep] <;> omega

/-- The depth profile moves by at most one per position. -/
theorem profAux_move (b : List Instruction) (d k : Nat) :
    profAux d b (k + 1) ≤ profAux d b k + 1 ∧ profAux d b k ≤ profAux d b (k + 1) + 1 := by
  by_cases hk : k < b.length
  · have hx : b[k]? = some (b[k]) := List.getElem?_eq_getElem hk
    rw [profAux_step b d k _ hx]
    exact profStep_le_succ _ _
  · have h1 : b.length ≤ k := by omega
    have h2 : b.length ≤ k + 1 := by omega
    rw [profAux_stable b d k h1, profAux_stable b d (k + 1) h2]
    omega

/-! Tag facts under WT. -/

theorem WT_tag_open {d0 : Nat} {b : List Instruction} (h : WT d0 b) :
    ∀ (k t : Nat), b[k]? = some (.JumpIfZero t) → t = profAux d0 b k := by
  induction h with
  | nil => intro k t hk; simp at hk
  | jz d rest hrest ih =>
    intro k t hk
    cases k with
    | zero =>
      simp at hk
      rw [hk, profAux_zero]
    | succ k =>
      simp only [List.getElem?_cons_succ] at hk
      rw [profAux_cons]
      exact ih k t hk
  | jnz d rest hrest ih =>
    intro k t hk
    cases k with
    | zero => simp at hk
    | succ k =>
      simp only [List.getElem?_cons_succ] at hk
      rw [profAux_cons]
      exact ih k t hk
  | skip d x rest hx1 hx2 hrest ih =>
    intro k t hk
    cases k with
    | zero =>
      simp at hk
      rw [hk] at hx1
      simp [isJumpOpen] at hx1
    | succ k =>
      simp only [List.getElem?_cons_succ] at hk
      rw [profAux_cons]
      have hs : profStep d x = d := by
        cases x <;> simp [isJumpOpen, isJumpClose] at hx1 hx2 <;> rfl
      rw [hs]
      exact ih k t hk

theorem WT_tag_close {d0 : Nat} {b : List Instruction} (h : WT d0 b) :
    ∀ (k t : Nat), b[k]? = some (.JumpIfNotZero t) → profAux d0 b k = t + 1 := by
  induction h with
  | nil => intro k t hk; simp at hk
  | jz d rest hrest ih =>
    intro k t hk
    cases k with
    | zero => simp at hk
    | succ k =>
      simp only [List.getElem?_cons_succ] at hk
      rw [profAux_cons]
      exact ih k t hk
  | jnz d rest hrest ih =>
    intro k t hk
    cases k with
    | zero =>
      simp at hk
      rw [profAux_zero, hk]
    | succ k =>
      simp only [List.getElem?_cons_succ] at hk
      rw [profAux_cons]
      exact ih k t hk
  | skip d x rest hx1 hx2 hrest ih =>
    intro k t hk
    cases k with
    | zero =>
      simp at hk
      rw [hk] at hx2
      simp [isJumpClose] at hx2
    | succ k =>
      simp only [List.getElem?_cons_succ] at hk
      rw [profAux_cons]
      have hs : profStep d x = d := by
        cases x <;> simp [isJumpOpen, isJumpClose] at hx1 hx2 <;> rfl
      rw [hs]
      exact ih k t hk

theorem WT_end {d0 : Nat} {b : List Instruction} (h : WT d0 b) :
    profAux d0 b b.length = 0 := by
  induction h with
  | nil => rfl
  | jz d rest hrest ih =>
    rw [show (Instruction.JumpIfZero d :: rest).length = rest.length + 1 from rfl, profAux_cons]
    exact ih
  | jnz d rest hrest ih =>
    rw [show (Instruction.JumpIfNotZero d :: rest).length = rest.length + 1 from rfl, profAux_cons]
    exact ih
  | skip d x rest hx1 hx2 hrest ih =>
    rw [show (x :: rest).length = rest.length + 1 from rfl, profAux_cons]
    have hs : profStep d x = d := by
      cases x <;> simp [isJumpOpen, isJumpClose] at hx1 hx2 <;> rfl
    rw [hs]
    exact ih

/-! Characterisation of the linear search of resolve_jumps. -/

theorem findIdxAux_some (n : Nat) : ∀ (xs : List Instruction) (i j : Nat),
    findIdxAux n xs i = some j →
    i ≤ j ∧ xs[j - i]? = some (.JumpIfNotZero n) ∧
      ∀ m, m < j - i → xs[m]? ≠ some (.JumpIfNotZero n) := by
  intro xs
  induction xs with
  | nil => intro i j h; simp [findIdxAux] at h
  | cons x rest ih =>
    intro i j h
    by_cases hx : x = .JumpIfNotZero n
    · rw [findIdxAux, if_pos hx] at h
      have hj : j = i := by simpa using h.symm
      subst hj
      refine ⟨le_refl j, ?_, ?_⟩
      · simp [hx]
      · intro m hm; omega
    · rw [findIdxAux, if_neg hx] at h
      obtain ⟨h1, h2, h3⟩ := ih (i + 1) j h
      refine ⟨by omega, ?_, ?_⟩
      · have : j - i = (j - (i + 1)) + 1 := by omega
        rw [this]
        simpa using h2
      · intro m hm
        cases m with
        | zero =>
          simp only [List.getElem?_cons_zero]
          intro hc
          exact hx (by simpa using hc)
        | succ m =>
          simp only [List.getElem?_cons_succ]
          exact h3 m (by omega)

theorem findIdxAux_complete (n : Nat) : ∀ (xs : List Instruction) (i m : Nat),
    xs[m]? = some (.JumpIfNotZero n) →
    ∃ j, findIdxAux n xs i = some j ∧ j ≤ i + m := by
  intro xs
  induction xs with
  | nil => intro i m h; simp at h
  | cons x rest ih =>
    intro i m h
    by_cases hx : x = .JumpIfNotZero n
    · exact ⟨i, by rw [findIdxAux, if_pos hx], by omega⟩
    · cases m with
      | zero =>
        simp only [List.getElem?_cons_zero] at h
        exact absurd (by simpa using h) hx
      | succ m =>
        simp only [List.getElem?_cons_succ] at h
        obtain ⟨j, hj1, hj2⟩ := ih (i + 1) m h
        exact ⟨j, by rw [findIdxAux, if_neg hx]; exact hj1, by omega⟩

/-- The search returns exactly the first matching close at or after start. -/
theorem findFromIdx_eq_of_first (b : List Instruction) (start n q : Nat)
    (hq : b[q]? = some (.JumpIfNotZero n)) (hs : start ≤ q)
    (hfirst : ∀ j2, start ≤ j2 → j2 < q → b[j2]? ≠ some (.JumpIfNotZero n)) :
    findFromIdx b start n = some q := by
  have hdropq : (b.drop start)[q - start]? = some (.JumpIfNotZero n) := by
    rw [List.getElem?_drop]
    have : start + (q - start) = q := by omega
    rw [this]; exact hq
  obtain ⟨j, hj1, hj2⟩ := findIdxAux_complete n (b.drop start) start (q - start) hdropq
  obtain ⟨h1, h2, h3⟩ := findIdxAux_some n (b.drop start) start j hj1
  rw [List.getElem?_drop] at h2
  by_cases hlt : start + (j - start) < q
  · exact absurd h2 (hfirst (start + (j - start)) (by omega) hlt)
  · have hjq : j = q := by omega
    rw [findFromIdx, hj1, hjq]

/-- Specification of a successful search. -/
theorem findFromIdx_spec (b : List Instruction) (start n j : Nat)
    (h : findFromIdx b start n = some j) :
    start ≤ j ∧ b[j]? = some (.JumpIfNotZero n) ∧
      ∀ j2, start ≤ j2 → j2 < j → b[j2]? ≠ some (.JumpIfNotZero n) := by
  obtain ⟨h1, h2, h3⟩ := findIdxAux_some n (b.drop start) start j h
  rw [List.getElem?_drop] at h2
  have hsj : start + (j - start) = j := by omega
  rw [hsj] at h2
  refine ⟨h1, h2, ?_⟩
  intro j2 hj2a hj2b hc
  have : (b.drop start)[j2 - start]? = some (.JumpIfNotZero n) := by
    rw [List.getElem?_drop]
    have : start + (j2 - start) = j2 := by omega
    rw [this]; exact hc
  exact h3 (j2 - start) (by omega) this

/--
The key matching fact: on a correctly tagged stream, the first
JumpIfNotZero carrying tag d at or after an open tagged d sits exactly
where the depth profile first returns to d, the profile staying strictly
above d in between.
-/
theorem open_match (b : List Instruction) (hwt : WT 0 b) (i d : Nat)
    (hi : b[i]? = some (.JumpIfZero d)) :
    ∃ j, findFromIdx b i d = some j ∧ i < j ∧ j < b.length ∧
      b[j]? = some (.JumpIfNotZero d) ∧
      profAux 0 b (j + 1) = d ∧
      (∀ k, i < k → k ≤ j → d < profAux 0 b k) ∧
      (∀ j2, i ≤ j2 → j2 < j → b[j2]? ≠ some (.JumpIfNotZero d)) := by
  have hilen : i < b.length := (List.getElem?_eq_some.mp hi).1
  have hdi : d = profAux 0 b i := WT_tag_open hwt i d hi
  have hI1 : profAux 0 b (i + 1) = d + 1 := by
    rw [profAux_step b 0 i _ hi, ← hdi]
    rfl
  have hex : ∃ k, i + 1 ≤ k ∧ profAux 0 b k ≤ d := by
    refine ⟨b.length, by omega, ?_⟩
    rw [WT_end hwt]
    omega
  set K := Nat.find hex with hKdef
  have hPK : i + 1 ≤ K ∧ profAux 0 b K ≤ d := Nat.find_spec hex
  have hmin : ∀ k, k < K → ¬(i + 1 ≤ k ∧ profAux 0 b k ≤ d) := fun k hk => Nat.find_min hex hk
  have hKgt : i + 1 < K := by
    rcases Nat.lt_or_ge (i + 1) K with h | h
    · exact h
    · have hKe : K = i + 1 := by omega
      rw [hKe, hI1] at hPK
      omega
  have hjK : (K - 1) + 1 = K := by omega
  have hprofj : d < profAux 0 b (K - 1) := by
    have := hmin (K - 1) (by omega)
    have h1 : i + 1 ≤ K - 1 := by omega
    omega
  have hmove := profAux_move b 0 (K - 1)
  rw [hjK] at hmove
  have hprofjeq : profAux 0 b (K - 1) = d + 1 := by omega
  have hprofKeq : profAux 0 b K = d := by omega
  have hjlen : K - 1 < b.length := by
    by_contra hcon
    have h1 : b.length ≤ K - 1 := by omega
    have := profAux_stable b 0 (K - 1) h1
    rw [WT_end hwt] at this
    omega
  obtain ⟨x, hx⟩ : ∃ x, b[K - 1]? = some x :=
    ⟨_, List.getElem?_eq_getElem hjlen⟩
  have hstepj : profAux 0 b K = profStep (profAux 0 b (K - 1)) x := by
    have h0 := profAux_step b 0 (K - 1) x hx
    rw [hjK] at h0
    exact h0
  have hj : b[K - 1]? = some (.JumpIfNotZero d) := by
    rcases x with n | n | _ | t | t
    · rw [hprofKeq, hprofjeq] at hstepj; simp [profStep] at hstepj
    · rw [hprofKeq, hprofjeq] at hstepj; simp [profStep] at hstepj
    · rw [hprofKeq, hprofjeq] at hstepj; simp [profStep] at hstepj
    · rw [hprofKeq, hprofjeq] at hstepj; simp [profStep] at hstepj; omega
    · have := WT_tag_close hwt (K - 1) t hx
      rw [hprofjeq] at this
      have ht : t = d := by omega
      rw [ht] at hx
      exact hx
  have hrange : ∀ k, i < k → k ≤ K - 1 → d < profAux 0 b k := by
    intro k hk1 hk2
    have := hmin k (by omega)
    have h1 : i + 1 ≤ k := by omega
    omega
  have hfirst : ∀ j2, i ≤ j2 → j2 < K - 1 → b[j2]? ≠ some (.JumpIfNotZero d) := by
    intro j2 h1 h2 hc
    rcases Nat.eq_or_lt_of_le h1 with he | hlt
    · rw [← he] at hc
      rw [hi] at hc
      simp at hc
    · have hcl := WT_tag_close hwt j2 d hc
      have hstep2 : profAux 0 b (j2 + 1) = profStep (profAux 0 b j2) (.JumpIfNotZero d) :=
        profAux_step b 0 j2 _ hc
      rw [hcl] at hstep2
      have : profAux 0 b (j2 + 1) = d := by simpa [profStep] using hstep2
      have := hrange (j2 + 1) (by omega) (by omega)
      omega
  refine ⟨K - 1, ?_, by omega, hjlen, hj, by rw [hjK]; exact hprofKeq, hrange, hfirst⟩
  exact findFromIdx_eq_of_first b i d (K - 1) hj (by omega) hfirst

/-- Two different opens never share a matching close. -/
theorem match_inj (b : List Instruction) (hwt : WT 0 b) (i d i2 d2 j : Nat)
    (hi : b[i]? = some (.JumpIfZero d)) (hi2 : b[i2]? = some (.JumpIfZero d2))
    (hj : findFromIdx b i d = some j) (hj2 : findFromIdx b i2 d2 = some j) : i = i2 := by
  obtain ⟨j1, hf1, hlt1, hlen1, hcl1, hprof1, hrange1, hfirst1⟩ := open_match b hwt i d hi
  obtain ⟨j2, hf2, hlt2, hlen2, hcl2, hprof2, hrange2, hfirst2⟩ := open_match b hwt i2 d2 hi2
  have he1 : j1 = j := by rw [hf1] at hj; exact Option.some.inj hj
  have he2 : j2 = j := by rw [hf2] at hj2; exact Option.some.inj hj2
  subst he1
  subst he2
  have hdd : d = d2 := by rw [← hprof1, ← hprof2]
  rcases lt_trichotomy i i2 with h | h | h
  · have h1 := hrange1 i2 h (by omega)
    have h2 := WT_tag_open hwt i2 d2 hi2
    omega
  · exact h
  · have h1 := hrange2 i h (by omega)
    have h2 := WT_tag_open hwt i d hi
    omega

/-- Every close on a correctly tagged stream is the first-match of a unique
open to its left. -/
theorem close_matched (b : List Instruction) (hwt : WT 0 b) (q t : Nat)
    (hq : b[q]? = some (.JumpIfNotZero t)) :
    ∃ p, b[p]? = some (.JumpIfZero t) ∧ findFromIdx b p t = some q ∧ p < q := by
  have hqlen : q < b.length := (List.getElem?_eq_some.mp hq).1
  have hprofq : profAux 0 b q = t + 1 := WT_tag_close hwt q t hq
  have hprofq1 : profAux 0 b (q + 1) = t := by
    have := profAux_step b 0 q _ hq
    rw [hprofq] at this
    simpa [profStep] using this
  have hP0 : profAux 0 b 0 ≤ t := by rw [profAux_zero]; omega
  set i := Nat.findGreatest (fun m => profAux 0 b m ≤ t) q with hidef
  have hPi : profAux 0 b i ≤ t := by
    rw [hidef]
    exact @Nat.findGreatest_spec 0 (fun m => profAux 0 b m ≤ t) _ q (Nat.zero_le q) hP0
  have hgr : ∀ k, i < k → k ≤ q → ¬ profAux 0 b k ≤ t := by
    intro k h1 h2
    rw [hidef] at h1
    exact @Nat.findGreatest_is_greatest k (fun m => profAux 0 b m ≤ t) _ q h1 h2
  have hiq : i ≤ q := by
    rw [hidef]
    exact Nat.findGreatest_le q
  have hlt : i < q := by
    rcases Nat.eq_or_lt_of_le hiq with he | hlt
    · rw [he] at hPi; omega
    · exact hlt
  have hup : ¬ profAux 0 b (i + 1) ≤ t := hgr (i + 1) (by omega) (by omega)
  have hilen : i < b.length := by
    by_contra hcon
    have h1 : b.length ≤ i := by omega
    have e1 := profAux_stable b 0 i h1
    have e2 := profAux_stable b 0 (i + 1) (by omega)
    rw [e1, e2] at *
    omega
  obtain ⟨x, hx⟩ : ∃ x, b[i]? = some x :=
    ⟨_, List.getElem?_eq_getElem hilen⟩
  have hstep : profAux 0 b (i + 1) = profStep (profAux 0 b i) x := profAux_step b 0 i x hx
  have hopen : b[i]? = some (.JumpIfZero t) := by
    rcases x with n | n | _ | n | n
    · simp [profStep] at hstep; omega
    · simp [profStep] at hstep; omega
    · simp [profStep] at hstep; omega
    · have htag := WT_tag_open hwt i n hx
      have : profAux 0 b i = t := by
        simp [profStep] at hstep
        omega
      rw [← htag] at this
      rw [this] at hx
      exact hx
    · simp [profStep] at hstep; omega
  refine ⟨i, hopen, ?_, hlt⟩
  apply findFromIdx_eq_of_first b i t q hq (by omega)
  intro j2 h1 h2 hc
  rcases Nat.eq_or_lt_of_le h1 with he | hlt2
  · rw [← he, hopen] at hc
    simp at hc
  · have hcl := WT_tag_close hwt j2 t hc
    have hstep2 := profAux_step b 0 j2 _ hc
    rw [hcl] at hstep2
    have hval : profAux 0 b (j2 + 1) = t := by simpa [profStep] using hstep2
    exact hgr (j2 + 1) (by omega) (by omega) (by omega)

/-- Matched pairs nest: an open strictly inside another pair closes strictly
inside it as well. -/
theorem match_nested (b : List Instruction) (hwt : WT 0 b) (p e a d mp ma : Nat)
    (hp : b[p]? = some (.JumpIfZero e)) (hmp : findFromIdx b p e = some mp)
    (ha : b[a]? = some (.JumpIfZero d)) (hma : findFromIdx b a d = some ma)
    (hpa : p < a) (hamp : a < mp) : ma < mp := by
  obtain ⟨j1, hf1, hlt1, hlen1, hcl1, hprof1, hrange1, hfirst1⟩ := open_match b hwt p e hp
  obtain ⟨j2, hf2, hlt2, hlen2, hcl2, hprof2, hrange2, hfirst2⟩ := open_match b hwt a d ha
  have he1 : j1 = mp := by rw [hf1] at hmp; exact Option.some.inj hmp
  have he2 : j2 = ma := by rw [hf2] at hma; exact Option.some.inj hma
  rw [he1] at hlt1 hlen1 hcl1 hprof1 hrange1 hfirst1
  rw [he2] at hlt2 hlen2 hcl2 hprof2 hrange2 hfirst2
  have hda : d = profAux 0 b a := WT_tag_open hwt a d ha
  have hed : e < d := by
    have := hrange1 a hpa (by omega)
    omega
  have hprofmp : profAux 0 b mp = e + 1 := by
    have h2 := hrange1 mp (by omega) (by omega)
    have hmove := profAux_move b 0 mp
    omega
  by_contra hcon
  have hmpma : mp ≤ ma := by omega
  have := hrange2 mp hamp hmpma
  omega

/-- The sweep invariant holds before the first iteration. -/
theorem rewritten_init (b : List Instruction) : Rewritten b b 0 := by
  refine ⟨rfl, ?_, ?_, ?_⟩
  · intro q dq hq
    exact ⟨fun _ => hq, fun h => absurd h (by omega)⟩
  · intro q tq hq
    right
    refine ⟨?_, hq⟩
    rintro ⟨p, dp, hp, -⟩
    omega
  · intro q x hx _ _
    exact hx

/-- A sweep step over a position that does not hold an open jump keeps the
invariant. -/
theorem rewritten_skip (b cur : List Instruction) (a : Nat)
    (hinv : Rewritten b cur a) (hna : ∀ dq, b[a]? ≠ some (.JumpIfZero dq)) :
    Rewritten b cur (a + 1) := by
  obtain ⟨hlen, hop, hcl, hnj⟩ := hinv
  refine ⟨hlen, ?_, ?_, hnj⟩
  · intro q dq hq
    obtain ⟨h1, h2⟩ := hop q dq hq
    have hqa : q ≠ a := by
      intro he
      exact hna dq (he ▸ hq)
    constructor
    · intro h
      exact h1 (by omega)
    · intro h
      exact h2 (by omega)
  · intro q tq hq
    rcases hcl q tq hq with ⟨p, dp, hp1, hp2, hp3, hp4⟩ | ⟨hn, he⟩
    · exact Or.inl ⟨p, dp, by omega, hp2, hp3, hp4⟩
    · right
      refine ⟨?_, he⟩
      rintro ⟨p, dp, hp1, hp2, hp3⟩
      rcases Nat.lt_or_ge p a with hpa | hpa
      · exact hn ⟨p, dp, hpa, hp2, hp3⟩
      · have hpe : p = a := by omega
        exact hna dp (hpe ▸ hp2)

/--
Search stability: when the sweep reaches an unprocessed open, the search on
the partially rewritten stream returns the same position as the search on
the original stream.
-/
theorem find_stable (b cur : List Instruction) (a d j : Nat) (hwt : WT 0 b)
    (hinv : Rewritten b cur a) (ha : b[a]? = some (.JumpIfZero d))
    (hj : findFromIdx b a d = some j) : findFromIdx cur a d = some j := by
  obtain ⟨hlen, hop, hcl, hnj⟩ := hinv
  obtain ⟨j1, hf1, hlt1, hlen1, hcl1, hprof1, hrange1, hfirst1⟩ := open_match b hwt a d ha
  have he : j1 = j := by rw [hf1] at hj; exact Option.some.inj hj
  rw [he] at hlt1 hlen1 hcl1 hprof1 hrange1 hfirst1
  have hcj : cur[j]? = some (.JumpIfNotZero d) := by
    rcases hcl j d hcl1 with ⟨p, dp, hp1, hp2, hp3, hp4⟩ | ⟨-, h2⟩
    · have := match_inj b hwt p dp a d j hp2 ha hp3 hj
      omega
    · exact h2
  apply findFromIdx_eq_of_first cur a d j hcj (by omega)
  intro j2 h1 h2 hc
  have hj2len : j2 < b.length := by omega
  obtain ⟨x, hx⟩ : ∃ x, b[j2]? = some x := ⟨_, List.getElem?_eq_getElem hj2len⟩
  rcases x with n | n | _ | tt | tt
  · rw [hnj j2 _ hx rfl rfl] at hc; simp at hc
  · rw [hnj j2 _ hx rfl rfl] at hc; simp at hc
  · rw [hnj j2 _ hx rfl rfl] at hc; simp at hc
  · obtain ⟨hge, hlt⟩ := hop j2 tt hx
    by_cases hq : a ≤ j2
    · rw [hge hq] at hc; simp at hc
    · obtain ⟨j3, hfind3, hj3⟩ := hlt (by omega)
      rw [hj3] at hc; simp at hc
  · rcases hcl j2 tt hx with ⟨p, dp, hp1, hp2, hp3, hp4⟩ | ⟨-, h3⟩
    · have hne : a ≠ j2 := by
        intro hEq
        rw [hEq] at ha
        rw [ha] at hx
        simp at hx
      have hgt : a < j2 := by omega
      have := match_nested b hwt p dp a d j2 j hp2 hp3 ha hj hp1 hgt
      omega
    · rw [h3] at hc
      have htt : tt = d := by simpa using hc
      rw [htt] at hx
      exact hfirst1 j2 h1 h2 hx

/-- Rewriting the pair found for the open at the sweep position advances the
invariant by one position. -/
theorem rewritten_step (b cur : List Instruction) (a d j : Nat) (hwt : WT 0 b)
    (hinv : Rewritten b cur a) (ha : b[a]? = some (.JumpIfZero d))
    (hj : findFromIdx b a d = some j) :
    Rewritten b ((cur.set a (.JumpIfZero j)).set j (.JumpIfNotZero a)) (a + 1) := by
  obtain ⟨hlen, hop, hcl, hnj⟩ := hinv
  obtain ⟨j1, hf1, hlt1, hlen1, hcl1, hprof1, hrange1, hfirst1⟩ := open_match b hwt a d ha
  have he : j1 = j := by rw [hf1] at hj; exact Option.some.inj hj
  rw [he] at hlt1 hlen1 hcl1 hprof1 hrange1 hfirst1
  have halen : a < b.length := (List.getElem?_eq_some.mp ha).1
  have haj : a ≠ j := by omega
  have hsetlen : ((cur.set a (.JumpIfZero j)).set j (.JumpIfNotZero a)).length = b.length := by
    simp [hlen]
  have hget_other : ∀ q : Nat, q ≠ a → q ≠ j →
      ((cur.set a (.JumpIfZero j)).set j (.JumpIfNotZero a))[q]? = cur[q]? := by
    intro q h1 h2
    rw [List.getElem?_set_ne h2.symm, List.getElem?_set_ne h1.symm]
  have hget_a : ((cur.set a (.JumpIfZero j)).set j (.JumpIfNotZero a))[a]? =
      some (.JumpIfZero j) := by
    rw [List.getElem?_set_ne haj.symm, List.getElem?_set_self (by rw [hlen]; exact halen)]
  have hget_j : ((cur.set a (.JumpIfZero j)).set j (.JumpIfNotZero a))[j]? =
      some (.JumpIfNotZero a) := by
    rw [List.getElem?_set_self (by rw [List.length_set, hlen]; exact hlen1)]
  refine ⟨hsetlen, ?_, ?_, ?_⟩
  · intro q dq hq
    by_cases hqa : q = a
    · subst hqa
      have hdq : dq = d := by
        rw [ha] at hq
        exact (Instruction.JumpIfZero.inj (Option.some.inj hq)).symm
      subst hdq
      constructor
      · intro hge; omega
      · intro _
        exact ⟨j, hj, hget_a⟩
    · have hqj : q ≠ j := by
        intro he2
        rw [he2, hcl1] at hq
        simp at hq
      obtain ⟨h1, h2⟩ := hop q dq hq
      rw [hget_other q hqa hqj]
      constructor
      · intro hge
        exact h1 (by omega)
      · intro hlt
        rcases Nat.lt_or_ge q a with hx | hx
        · exact h2 hx
        · omega
  · intro q tq hq
    by_cases hqj : q = j
    · subst hqj
      exact Or.inl ⟨a, d, by omega, ha, hj, hget_j⟩
    · have hqa : q ≠ a := by
        intro he2
        rw [he2, ha] at hq
        simp at hq
      rcases hcl q tq hq with ⟨p, dp, hp1, hp2, hp3, hp4⟩ | ⟨hn, hu⟩
      · exact Or.inl ⟨p, dp, by omega, hp2, hp3, by
          rw [hget_other q hqa hqj]; exact hp4⟩
      · right
        refine ⟨?_, by rw [hget_other q hqa hqj]; exact hu⟩
        rintro ⟨p, dp, hp1, hp2, hp3⟩
        rcases Nat.lt_or_ge p a with hpa | hpa
        · exact hn ⟨p, dp, hpa, hp2, hp3⟩
        · have hpe : p = a := by omega
          subst hpe
          have hdp : dp = d := by
            rw [ha] at hp2
            exact (Instruction.JumpIfZero.inj (Option.some.inj hp2)).symm
          rw [hdp, hj] at hp3
          exact hqj (Option.some.inj hp3).symm
  · intro q x hx ho hc
    have hqa : q ≠ a := by
      intro he2
      rw [he2, ha] at hx
      rw [← Option.some.inj hx] at ho
      simp [isJumpOpen] at ho
    have hqj : q ≠ j := by
      intro he2
      rw [he2, hcl1] at hx
      rw [← Option.some.inj hx] at hc
      simp [isJumpClose] at hc
    rw [hget_other q hqa hqj]
    exact hnj q x hx ho hc

/-- Correctness of the resolve_jumps sweep on a correctly tagged stream. -/
theorem resolveGo_correct (b : List Instruction) (hwt : WT 0 b) :
    ∀ (k a : Nat) (cur : List Instruction), a + k = b.length → Rewritten b cur a →
    ∃ cf, resolveGo k cur a = some cf ∧ Rewritten b cf b.length := by
  intro k
  induction k with
  | zero =>
    intro a cur hak hinv
    refine ⟨cur, rfl, ?_⟩
    have : a = b.length := by omega
    rwa [this] at hinv
  | succ k ih =>
    intro a cur hak hinv
    have halen : a < b.length := by omega
    obtain ⟨x, hx⟩ : ∃ x, b[a]? = some x := ⟨_, List.getElem?_eq_getElem halen⟩
    have hnjq := hinv.2.2.2
    rcases hxc : x with n | n | _ | d | t
    · rw [hxc] at hx
      have hcura : cur[a]? = some (.Increment n) := hnjq a _ hx rfl rfl
      obtain ⟨cf, hcf, hcfinv⟩ := ih (a + 1) cur (by omega)
        (rewritten_skip b cur a hinv (by intro dq hcon; rw [hx] at hcon; simp at hcon))
      exact ⟨cf, by simp only [resolveGo, hcura]; exact hcf, hcfinv⟩
    · rw [hxc] at hx
      have hcura : cur[a]? = some (.Shift n) := hnjq a _ hx rfl rfl
      obtain ⟨cf, hcf, hcfinv⟩ := ih (a + 1) cur (by omega)
        (rewritten_skip b cur a hinv (by intro dq hcon; rw [hx] at hcon; simp at hcon))
      exact ⟨cf, by simp only [resolveGo, hcura]; exact hcf, hcfinv⟩
    · rw [hxc] at hx
      have hcura : cur[a]? = some .Print := hnjq a _ hx rfl rfl
      obtain ⟨cf, hcf, hcfinv⟩ := ih (a + 1) cur (by omega)
        (rewritten_skip b cur a hinv (by intro dq hcon; rw [hx] at hcon; simp at hcon))
      exact ⟨cf, by simp only [resolveGo, hcura]; exact hcf, hcfinv⟩
    · rw [hxc] at hx
      have hcura : cur[a]? = some (.JumpIfZero d) := (hinv.2.1 a d hx).1 (le_refl a)
      obtain ⟨j1, hf1, hlt1, hlen1, hcl1, hprof1, hrange1, hfirst1⟩ := open_match b hwt a d hx
      have hfindc : findFromIdx cur a d = some j1 := find_stable b cur a d j1 hwt hinv hx hf1
      obtain ⟨cf, hcf, hcfinv⟩ := ih (a + 1)
        ((cur.set a (.JumpIfZero j1)).set j1 (.JumpIfNotZero a)) (by omega)
        (rewritten_step b cur a d j1 hwt hinv hx hf1)
      exact ⟨cf, by simp only [resolveGo, hcura, hfindc]; exact hcf, hcfinv⟩
    · rw [hxc] at hx
      have hcura : ∃ p, cur[a]? = some (.JumpIfNotZero p) := by
        rcases hinv.2.2.1 a t hx with ⟨p, dp, hp1, hp2, hp3, hp4⟩ | ⟨hn, hu⟩
        · exact ⟨p, hp4⟩
        · exact ⟨t, hu⟩
      obtain ⟨p, hcura⟩ := hcura
      obtain ⟨cf, hcf, hcfinv⟩ := ih (a + 1) cur (by omega)
        (rewritten_skip b cur a hinv (by intro dq hcon; rw [hx] at hcon; simp at hcon))
      exact ⟨cf, by simp only [resolveGo, hcura]; exact hcf, hcfinv⟩

/-- On a correctly tagged stream, resolve_jumps succeeds and produces a
symmetric, properly nested jump pairing. -/
theorem resolve_jumps_WT (b : List Instruction) (hwt : WT 0 b) :
    ∃ cf, resolve_jumps b = some cf ∧ cf.length = b.length ∧
      (∀ i j : Nat, cf[i]? = some (.JumpIfZero j) →
          cf[j]? = some (.JumpIfNotZero i) ∧ i < j) ∧
      (∀ i j : Nat, cf[j]? = some (.JumpIfNotZero i) → cf[i]? = some (.JumpIfZero j)) ∧
      (∀ i j i2 j2 : Nat, cf[i]? = some (.JumpIfZero j) → cf[i2]? = some (.JumpIfZero j2) →
          i < i2 → j2 < j ∨ j < i2) := by
  obtain ⟨hcur0⟩ : Nonempty (Rewritten b b 0) := ⟨rewritten_init b⟩
  obtain ⟨cf, hres, hinv⟩ := resolveGo_correct b hwt b.length 0 b (by omega) hcur0
  obtain ⟨hlen, hop, hcl, hnj⟩ := hinv
  have recov : ∀ i j : Nat, cf[i]? = some (.JumpIfZero j) →
      ∃ d, b[i]? = some (.JumpIfZero d) ∧ findFromIdx b i d = some j := by
    intro i j hij
    have hilen : i < b.length := by
      have := (List.getElem?_eq_some.mp hij).1
      omega
    obtain ⟨x, hx⟩ : ∃ x, b[i]? = some x := ⟨_, List.getElem?_eq_getElem hilen⟩
    rcases hxc : x with n | n | _ | d | t
    all_goals rw [hxc] at hx
    · rw [hnj i _ hx rfl rfl] at hij; simp at hij
    · rw [hnj i _ hx rfl rfl] at hij; simp at hij
    · rw [hnj i _ hx rfl rfl] at hij; simp at hij
    · obtain ⟨j1, hfind1, hcf1⟩ := (hop i d hx).2 hilen
      rw [hcf1] at hij
      have : j1 = j := (Instruction.JumpIfZero.inj (Option.some.inj hij))
      rw [← this]
      exact ⟨d, hx, hfind1⟩
    · rcases hcl i t hx with ⟨p, dp, hp1, hp2, hp3, hp4⟩ | ⟨hn, hu⟩
      · rw [hp4] at hij; simp at hij
      · rw [hu] at hij; simp at hij
  refine ⟨cf, hres, hlen, ?_, ?_, ?_⟩
  · intro i j hij
    obtain ⟨d, hx, hfind⟩ := recov i j hij
    obtain ⟨j1, hf1, hlt1, hlen1, hcl1, hprof1, hrange1, hfirst1⟩ := open_match b hwt i d hx
    have he : j1 = j := by rw [hf1] at hfind; exact Option.some.inj hfind
    rw [he] at hlt1 hlen1 hcl1 hprof1 hrange1 hfirst1
    refine ⟨?_, hlt1⟩
    rcases hcl j d hcl1 with ⟨p, dp, hp1, hp2, hp3, hp4⟩ | ⟨hn, hu⟩
    · have hpi : p = i := match_inj b hwt p dp i d j hp2 hx hp3 hfind
      rw [hpi] at hp4
      exact hp4
    · exfalso
      have hilen : i < b.length := (List.getElem?_eq_some.mp hx).1
      exact hn ⟨i, d, hilen, hx, hfind⟩
  · intro i j hji
    have hjlen : j < b.length := by
      have := (List.getElem?_eq_some.mp hji).1
      omega
    obtain ⟨x, hx⟩ : ∃ x, b[j]? = some x := ⟨_, List.getElem?_eq_getElem hjlen⟩
    rcases hxc : x with n | n | _ | d | t
    all_goals rw [hxc] at hx
    · rw [hnj j _ hx rfl rfl] at hji; simp at hji
    · rw [hnj j _ hx rfl rfl] at hji; simp at hji
    · rw [hnj j _ hx rfl rfl] at hji; simp at hji
    · obtain ⟨j1, hfind1, hcf1⟩ := (hop j d hx).2 hjlen
      rw [hcf1] at hji; simp at hji
    · rcases hcl j t hx with ⟨p, dp, hp1, hp2, hp3, hp4⟩ | ⟨hn, hu⟩
      · rw [hp4] at hji
        have hpi : p = i := (Instruction.JumpIfNotZero.inj (Option.some.inj hji))
        rw [hpi] at hp2 hp3
        have hilen : i < b.length := (List.getElem?_eq_some.mp hp2).1
        obtain ⟨j2, hfind2, hcf2⟩ := (hop i dp hp2).2 hilen
        rw [hp3] at hfind2
        have : j2 = j := (Option.some.inj hfind2).symm
        rw [this] at hcf2
        exact hcf2
      · exfalso
        obtain ⟨p, hpo, hpf, hplt⟩ := close_matched b hwt j t hx
        have hplen : p < b.length := by omega
        exact hn ⟨p, t, hplen, hpo, hpf⟩
  · intro i j i2 j2 h1 h2 hlt
    obtain ⟨d, hx, hfind⟩ := recov i j h1
    obtain ⟨d2, hx2, hfind2⟩ := recov i2 j2 h2
    by_cases hij2 : i2 < j
    · left
      exact match_nested b hwt i d i2 d2 j j2 hx hfind hx2 hfind2 hlt hij2
    · right
      have hne : i2 ≠ j := by
        intro he
        obtain ⟨jm, hf1, hlt1, hlen1, hcl1, hprof1, hrange1, hfirst1⟩ := open_match b hwt i d hx
        have hjm : jm = j := by rw [hf1] at hfind; exact Option.some.inj hfind
        rw [hjm] at hcl1
        rw [he, hcl1] at hx2
        simp at hx2
      omega

/-- Prepending non-jump instructions preserves correct tagging. -/
theorem WT_append_left (l : List Instruction) (d : Nat) (b : List Instruction)
    (hl : ∀ x ∈ l, isJumpOpen x = false ∧ isJumpClose x = false)
    (h : WT d b) : WT d (l ++ b) := by
  induction l with
  | nil => simpa using h
  | cons x xs ih =>
    have hx := hl x (List.mem_cons_self x xs)
    exact WT.skip d x (xs ++ b) hx.1 hx.2 (ih (fun y hy => hl y (List.mem_cons_of_mem x hy)))

/-- The flush of the accumulator emits only non-jump instructions. -/
theorem flushInstr_nonjump (st : CompilerState) :
    ∀ x ∈ flushInstr st, isJumpOpen x = false ∧ isJumpClose x = false := by
  intro x hx
  cases st with
  | Initial => simp [flushInstr] at hx
  | Increment n =>
    simp only [flushInstr] at hx
    by_cases hn : n = 0
    · simp [hn] at hx
    · simp [hn] at hx
      rw [hx]
      exact ⟨rfl, rfl⟩
  | Shift n =>
    simp only [flushInstr] at hx
    by_cases hn : n = 0
    · simp [hn] at hx
    · simp [hn] at hx
      rw [hx]
      exact ⟨rfl, rfl⟩

/-- A flushed accumulator on its own is correctly tagged at depth 0. -/
theorem WT_flush (st : CompilerState) : WT 0 (flushInstr st) := by
  have h := WT_append_left (flushInstr st) 0 [] (flushInstr_nonjump st) WT.nil
  simpa using h

/-- compile's folding loop sends correctly tagged statement sequences to
correctly tagged instruction streams, from any accumulator state. -/
theorem compileLoop_WT {d : Nat} {ss : List Statement} (h : WTS d ss) :
    ∀ st : CompilerState, ∃ out, compileLoop ss st = some out ∧ WT d out := by
  induction h with
  | nil =>
    intro st
    exact ⟨flushInstr st, rfl, WT_flush st⟩
  | jz d rest hrest ih =>
    intro st
    obtain ⟨out, ho, hw⟩ := ih .Initial
    refine ⟨flushInstr st ++ .JumpIfZero d :: out, ?_, ?_⟩
    · cases st <;> simp only [compileLoop, ho, Option.map_some']
    · exact WT_append_left _ _ _ (flushInstr_nonjump st) (WT.jz d out hw)
  | jnz d rest hrest ih =>
    intro st
    obtain ⟨out, ho, hw⟩ := ih .Initial
    refine ⟨flushInstr st ++ .JumpIfNotZero d :: out, ?_, ?_⟩
    · cases st <;> simp only [compileLoop, ho, Option.map_some']
    · exact WT_append_left _ _ _ (flushInstr_nonjump st) (WT.jnz d out hw)
  | skip d x rest hj hr hrest ih =>
    intro st
    cases x with
    | JumpIfZero n => simp [stmtIsJump] at hj
    | JumpIfNotZero n => simp [stmtIsJump] at hj
    | Read => exact absurd rfl hr
    | ShiftRight =>
      cases st with
      | Shift n =>
        obtain ⟨out, ho, hw⟩ := ih (.Shift (n + 1))
        exact ⟨out, by simp only [compileLoop, ho], hw⟩
      | Initial =>
        obtain ⟨out, ho, hw⟩ := ih (.Shift 1)
        refine ⟨flushInstr .Initial ++ out, ?_, ?_⟩
        · simp only [compileLoop, ho, Option.map_some']
        · exact WT_append_left _ _ _ (flushInstr_nonjump _) hw
      | Increment n =>
        obtain ⟨out, ho, hw⟩ := ih (.Shift 1)
        refine ⟨flushInstr (.Increment n) ++ out, ?_, ?_⟩
        · simp only [compileLoop, ho, Option.map_some']
        · exact WT_append_left _ _ _ (flushInstr_nonjump _) hw
    | ShiftLeft =>
      cases st with
      | Shift n =>
        obtain ⟨out, ho, hw⟩ := ih (.Shift (n - 1))
        exact ⟨out, by simp only [compileLoop, ho], hw⟩
      | Initial =>
        obtain ⟨out, ho, hw⟩ := ih (.Shift (-1))
        refine ⟨flushInstr .Initial ++ out, ?_, ?_⟩
        · simp only [compileLoop, ho, Option.map_some']
        · exact WT_append_left _ _ _ (flushInstr_nonjump _) hw
      | Increment n =>
        obtain ⟨out, ho, hw⟩ := ih (.Shift (-1))
        refine ⟨flushInstr (.Increment n) ++ out, ?_, ?_⟩
        · simp only [compileLoop, ho, Option.map_some']
        · exact WT_append_left _ _ _ (flushInstr_nonjump _) hw
    | Increment =>
      cases st with
      | Increment n =>
        obtain ⟨out, ho, hw⟩ := ih (.Increment (n + 1))
        exact ⟨out, by simp only [compileLoop, ho], hw⟩
      | Initial =>
        obtain ⟨out, ho, hw⟩ := ih (.Increment 1)
        refine ⟨flushInstr .Initial ++ out, ?_, ?_⟩
        · simp only [compileLoop, ho, Option.map_some']
        · exact WT_append_left _ _ _ (flushInstr_nonjump _) hw
      | Shift n =>
        obtain ⟨out, ho, hw⟩ := ih (.Increment 1)
        refine ⟨flushInstr (.Shift n) ++ out, ?_, ?_⟩
        · simp only [compileLoop, ho, Option.map_some']
        · exact WT_append_left _ _ _ (flushInstr_nonjump _) hw
    | Decrement =>
      cases st with
      | Increment n =>
        obtain ⟨out, ho, hw⟩ := ih (.Increment (n - 1))
        exact ⟨out, by simp only [compileLoop, ho], hw⟩
      | Initial =>
        obtain ⟨out, ho, hw⟩ := ih (.Increment (-1))
        refine ⟨flushInstr .Initial ++ out, ?_, ?_⟩
        · simp only [compileLoop, ho, Option.map_some']
        · exact WT_append_left _ _ _ (flushInstr_nonjump _) hw
      | Shift n =>
        obtain ⟨out, ho, hw⟩ := ih (.Increment (-1))
        refine ⟨flushInstr (.Shift n) ++ out, ?_, ?_⟩
        · simp only [compileLoop, ho, Option.map_some']
        · exact WT_append_left _ _ _ (flushInstr_nonjump _) hw
    | Print =>
      obtain ⟨out, ho, hw⟩ := ih .Initial
      have hwp : WT d (.Print :: out) := WT.skip d .Print out rfl rfl hw
      refine ⟨flushInstr st ++ .Print :: out, ?_, ?_⟩
      · cases st <;> simp only [compileLoop, ho, Option.map_some']
      · exact WT_append_left _ _ _ (flushInstr_nonjump _) hwp

/-- On a well-bracketed token sequence that stays at most 255 deep, the
statement builder never wraps, ends at depth 0, and emits a correctly
depth-tagged statement sequence. -/
theorem parseLoop_WTS : ∀ (ts : List Token) (d : Nat), tokDepthOk d ts = true →
    Token.Read ∉ ts → d ≤ 255 → (parseLoop ts d).2 = 0 ∧ WTS d (parseLoop ts d).1 := by
  intro ts
  induction ts with
  | nil =>
    intro d h1 h2 h3
    simp only [tokDepthOk, decide_eq_true_eq] at h1
    subst h1
    exact ⟨rfl, WTS.nil⟩
  | cons t ts ih =>
    intro d h1 h2 h3
    have h2t : Token.Read ∉ ts := fun hm => h2 (List.mem_cons_of_mem t hm)
    cases t with
    | LeftBracket =>
      simp only [tokDepthOk, Bool.and_eq_true, decide_eq_true_eq] at h1
      obtain ⟨hd, hrec⟩ := h1
      have hmod : (d + 1) % 256 = d + 1 := Nat.mod_eq_of_lt (by omega)
      have ihre := ih (d + 1) hrec h2t (by omega)
      constructor
      · show (parseLoop ts ((d + 1) % 256)).2 = 0
        rw [hmod]
        exact ihre.1
      · show WTS d (.JumpIfZero d :: (parseLoop ts ((d + 1) % 256)).1)
        rw [hmod]
        exact WTS.jz d _ ihre.2
    | RightBracket =>
      simp only [tokDepthOk, Bool.and_eq_true, decide_eq_true_eq] at h1
      obtain ⟨hd, hrec⟩ := h1
      cases d with
      | zero => omega
      | succ e =>
        have hmod : (e + 1 + 255) % 256 = e := by
          have h4 : e + 1 + 255 = e + 256 := by omega
          rw [h4, Nat.add_mod_right]
          exact Nat.mod_eq_of_lt (by omega)
        have hrec2 : tokDepthOk e ts = true := by simpa using hrec
        have ihre := ih e hrec2 h2t (by omega)
        constructor
        · show (parseLoop ts ((e + 1 + 255) % 256)).2 = 0
          rw [hmod]
          exact ihre.1
        · show WTS (e + 1)
            (.JumpIfNotZero ((e + 1 + 255) % 256) :: (parseLoop ts ((e + 1 + 255) % 256)).1)
          rw [hmod]
          exact WTS.jnz e _ ihre.2
    | Read => exact absurd (List.mem_cons_self _ _) h2
    | MovePointerLeft =>
      have h1r : tokDepthOk d ts = true := by simpa [tokDepthOk] using h1
      have ihre := ih d h1r h2t h3
      exact ⟨ihre.1, WTS.skip d .ShiftLeft _ rfl (by simp) ihre.2⟩
    | MovePointerRight =>
      have h1r : tokDepthOk d ts = true := by simpa [tokDepthOk] using h1
      have ihre := ih d h1r h2t h3
      exact ⟨ihre.1, WTS.skip d .ShiftRight _ rfl (by simp) ihre.2⟩
    | Increment =>
      have h1r : tokDepthOk d ts = true := by simpa [tokDepthOk] using h1
      have ihre := ih d h1r h2t h3
      exact ⟨ihre.1, WTS.skip d .Increment _ rfl (by simp) ihre.2⟩
    | Decrement =>
      have h1r : tokDepthOk d ts = true := by simpa [tokDepthOk] using h1
      have ihre := ih d h1r h2t h3
      exact ⟨ihre.1, WTS.skip d .Decrement _ rfl (by simp) ihre.2⟩
    | Print =>
      have h1r : tokDepthOk d ts = true := by simpa [tokDepthOk] using h1
      have ihre := ih d h1r h2t h3
      exact ⟨ihre.1, WTS.skip d .Print _ rfl (by simp) ihre.2⟩

/--
C3 (amended): for every token sequence whose brackets are genuinely
well-formed — the running depth never goes negative, never exceeds 255 (so
the u8 depth tags of the statement builder cannot wrap), and returns to
zero — and which uses no Read statement (compile has no lowering for it),
parse succeeds, compile produces an instruction stream, and in that stream
every JumpIfZero at index i targets an index j holding a JumpIfNotZero that
targets i back (and conversely), with i < j; the pairing is non-overlapping: two
pairs either nest or are disjoint.  This covers sibling loop groups at the
same nesting depth despite reused depth tags.
-/
theorem wellBracketed_compile_symmetric (ts : List Token)
    (h1 : tokDepthOk 0 ts = true) (h2 : Token.Read ∉ ts) :
    ∃ (stmts : List Statement) (instrs : List Instruction),
      parse ts = .ok stmts ∧ compile stmts = some instrs ∧
      (∀ i j : Nat, instrs[i]? = some (.JumpIfZero j) →
          instrs[j]? = some (.JumpIfNotZero i) ∧ i < j) ∧
      (∀ i j : Nat, instrs[j]? = some (.JumpIfNotZero i) →
          instrs[i]? = some (.JumpIfZero j)) ∧
      (∀ i j i2 j2 : Nat, instrs[i]? = some (.JumpIfZero j) →
          instrs[i2]? = some (.JumpIfZero j2) → i < i2 → j2 < j ∨ j < i2) := by
  obtain ⟨hz, hwts⟩ := parseLoop_WTS ts 0 h1 h2 (by omega)
  have hparse : parse ts = .ok (parseLoop ts 0).1 := by
    unfold parse
    rw [if_pos hz]
  obtain ⟨mid, hmid, hwt⟩ := compileLoop_WT hwts .Initial
  obtain ⟨cf, hres, hlen, hs1, hs2, hs3⟩ := resolve_jumps_WT mid hwt
  refine ⟨(parseLoop ts 0).1, cf, hparse, ?_, hs1, hs2, hs3⟩
  show (compileLoop (parseLoop ts 0).1 .Initial).bind resolve_jumps = some cf
  rw [hmid, Option.some_bind]
  exact hres

/-- Witness for the amended C3 on the sibling loops of "[][]". -/
theorem wellBracketed_compile_symmetric_witness :
    tokDepthOk 0 [Token.LeftBracket, Token.RightBracket, Token.LeftBracket,
        Token.RightBracket] = true ∧
    Token.Read ∉ [Token.LeftBracket, Token.RightBracket, Token.LeftBracket,
        Token.RightBracket] ∧
    (∃ (stmts : List Statement) (instrs : List Instruction),
      parse [Token.LeftBracket, Token.RightBracket, Token.LeftBracket,
          Token.RightBracket] = .ok stmts ∧
      compile stmts = some instrs ∧
      (∀ i j : Nat, instrs[i]? = some (.JumpIfZero j) →
          instrs[j]? = some (.JumpIfNotZero i) ∧ i < j) ∧
      (∀ i j : Nat, instrs[j]? = some (.JumpIfNotZero i) →
          instrs[i]? = some (.JumpIfZero j)) ∧
      (∀ i j i2 j2 : Nat, instrs[i]? = some (.JumpIfZero j) →
          instrs[i2]? = some (.JumpIfZero j2) → i < i2 → j2 < j ∨ j < i2)) :=
  ⟨by decide, by decide,
    wellBracketed_compile_symmetric
      [Token.LeftBracket, Token.RightBracket, Token.LeftBracket, Token.RightBracket]
      (by decide) (by decide)⟩
